import Mathlib

set_option maxHeartbeats 1000000

namespace Gloom

/-- Number of bits per block (one CPU cache line), `BlockBits` in params.go. -/
def BlockBits : Nat := 512

/-- Number of 64-bit words per block, `BlockWords` in params.go. -/
def BlockWords : Nat := BlockBits / 64

/-- The fixed partition table `primePartitions` of params.go: for each supported
k (3..14) a list of k strictly distinct positive values summing to exactly 512.
The Go map lookup is modelled as a function returning an `Option`. -/
def primePartitions (k : Nat) : Option (List Nat) :=
  if k = 3 then some [167, 173, 172]
  else if k = 4 then some [109, 127, 137, 139]
  else if k = 5 then some [97, 101, 103, 109, 102]
  else if k = 6 then some [61, 79, 83, 89, 97, 103]
  else if k = 7 then some [61, 67, 71, 79, 83, 89, 62]
  else if k = 8 then some [37, 47, 53, 61, 67, 71, 79, 97]
  else if k = 9 then some [41, 43, 47, 53, 59, 67, 71, 73, 58]
  else if k = 10 then some [31, 37, 41, 43, 47, 53, 59, 61, 67, 73]
  else if k = 11 then some [29, 31, 37, 41, 43, 44, 47, 53, 59, 61, 67]
  else if k = 12 then some [17, 23, 29, 31, 37, 41, 43, 47, 53, 59, 61, 71]
  else if k = 13 then some [17, 19, 23, 29, 31, 37, 41, 43, 47, 52, 53, 59, 61]
  else if k = 14 then some [11, 13, 17, 19, 23, 29, 31, 37, 41, 47, 53, 59, 61, 71]
  else none

/-- `GetPrimePartition` of params.go: table lookup, `none` for unsupported k. -/
def GetPrimePartition (k : Nat) : Option (List Nat) := primePartitions k

/-- Helper for `ComputeOffsets`: carries the running cumulative sum, mirroring
the loop `offsets[i] = cumulative; cumulative += p` of params.go. -/
def computeOffsetsAux : Nat → List Nat → List Nat
  | _, [] => []
  | c, p :: ps => c :: computeOffsetsAux (c + p) ps

/-- `ComputeOffsets` of params.go: exclusive prefix sums of the widths. -/
def ComputeOffsets (primes : List Nat) : List Nat := computeOffsetsAux 0 primes

/-- `hashSplit` of hash.go: the upper 32 bits of the 64-bit hash select the
block, the lower 32 bits are the intra-block hash. -/
def hashSplit (h numBlocks : Nat) : Nat × Nat :=
  ((h >>> 32) % numBlocks, h % 2 ^ 32)

/-- `hashSplitSharded` of hash.go: bits 48-63 select the block (bits 32-47 are
reserved for shard selection), the lower 32 bits are the intra-block hash. -/
def hashSplitSharded (h numBlocks : Nat) : Nat × Nat :=
  ((h >>> 48) % numBlocks, h % 2 ^ 32)

/-- The unsynchronized `Filter` of bloom.go.  Machine integers are modelled as
`Nat`; each word of `blocks` is kept below `2^64`.  The raw xxh3 hash of a key
is treated as an opaque 64-bit value, so the per-key operations take the hash
`h` directly. -/
structure Filter where
  blocks    : List Nat
  numBlocks : Nat
  k         : Nat
  primes    : List Nat
  offsets   : List Nat
  count     : Nat
  deriving DecidableEq

/-- `NewWithParams` of bloom.go: coerce `numBlocks = 0` to 1, fall back to
k = 7 when the partition lookup fails, allocate an all-zero bit array. -/
def NewWithParams (numBlocks0 k0 : Nat) : Filter :=
  let numBlocks := if numBlocks0 = 0 then 1 else numBlocks0
  match GetPrimePartition k0 with
  | some primes =>
    { blocks := List.replicate (numBlocks * BlockWords) 0
      numBlocks := numBlocks
      k := k0
      primes := primes
      offsets := ComputeOffsets primes
      count := 0 }
  | none =>
    { blocks := List.replicate (numBlocks * BlockWords) 0
      numBlocks := numBlocks
      k := 7
      primes := (GetPrimePartition 7).getD []
      offsets := ComputeOffsets ((GetPrimePartition 7).getD [])
      count := 0 }

/-- `Filter.addWithHash` of bloom.go: for each probe i < k, set bit
`offsets[i] + intraHash % primes[i]` of the selected block via bitwise OR,
then increment the (wrapping uint64) add counter. -/
def Filter.addWithHash (f : Filter) (blockIdx intraHash : Nat) : Filter :=
  let blockBase := blockIdx * BlockWords
  { f with
    blocks := (List.range f.k).foldl (fun bs i =>
      let bitPos := f.offsets.getD i 0 + intraHash % f.primes.getD i 0
      bs.set (blockBase + bitPos / 64)
        (bs.getD (blockBase + bitPos / 64) 0 ||| (1 <<< (bitPos % 64)))) f.blocks
    count := (f.count + 1) % 2 ^ 64 }

/-- `Filter.testWithHash` of bloom.go: all k probed bits must be set. -/
def Filter.testWithHash (f : Filter) (blockIdx intraHash : Nat) : Bool :=
  (List.range f.k).all fun i =>
    let bitPos := f.offsets.getD i 0 + intraHash % f.primes.getD i 0
    f.blocks.getD (blockIdx * BlockWords + bitPos / 64) 0 &&& (1 <<< (bitPos % 64)) != 0

/-- `Filter.Add` of bloom.go, applied to the raw 64-bit hash of the key. -/
def Filter.Add (f : Filter) (h : Nat) : Filter :=
  f.addWithHash (hashSplit h f.numBlocks).1 (hashSplit h f.numBlocks).2

/-- `Filter.Test` of bloom.go, applied to the raw 64-bit hash of the key. -/
def Filter.Test (f : Filter) (h : Nat) : Bool :=
  f.testWithHash (hashSplit h f.numBlocks).1 (hashSplit h f.numBlocks).2

/-- `Filter.TestAndAdd` of bloom.go: test first, then add only when absent. -/
def Filter.TestAndAdd (f : Filter) (h : Nat) : Bool × Filter :=
  let blockIdx := (hashSplit h f.numBlocks).1
  let intraHash := (hashSplit h f.numBlocks).2
  let present := f.testWithHash blockIdx intraHash
  (present, if present then f else f.addWithHash blockIdx intraHash)

/-- `Filter.Clear` of bloom.go: zero every word, reset the counter. -/
def Filter.Clear (f : Filter) : Filter :=
  { f with blocks := List.replicate f.blocks.length 0, count := 0 }

/-- `Filter.Count` accessor of bloom.go. -/
def Filter.Count (f : Filter) : Nat := f.count

/-- `Filter.Cap` accessor of bloom.go. -/
def Filter.Cap (f : Filter) : Nat := f.numBlocks * BlockBits

/-- The SWAR `popcount` of bloom.go, faithful to uint64 arithmetic: the two
subtractions never borrow, and the final multiply wraps modulo `2^64`. -/
def popcount (x : Nat) : Nat :=
  let m1 : Nat := 0x5555555555555555
  let m2 : Nat := 0x3333333333333333
  let m4 : Nat := 0x0f0f0f0f0f0f0f0f
  let h01 : Nat := 0x0101010101010101
  let x1 := x - ((x >>> 1) &&& m1)
  let x2 := (x1 &&& m2) + ((x1 >>> 2) &&& m2)
  let x3 := (x2 + (x2 >>> 4)) &&& m4
  ((x3 * h01) % 2 ^ 64) >>> 56

/-- `Filter.EstimatedFillRatio` of bloom.go: population count over capacity.
The float64 division is modelled exactly over the rationals. -/
def Filter.EstimatedFillRatio (f : Filter) : ℚ :=
  (((f.blocks.map popcount).sum : ℚ)) / ((f.numBlocks * BlockBits : Nat) : ℚ)

/-- The thread-safe `AtomicFilter` of bloom.go.  Sequentially its state and
bit logic are identical to `Filter` (`atomic.Uint64.Or` is a bitwise OR, the
counter a wrapping fetch-add); only `TestAndAdd` differs behaviourally. -/
structure AtomicFilter where
  blocks    : List Nat
  numBlocks : Nat
  k         : Nat
  primes    : List Nat
  offsets   : List Nat
  count     : Nat
  deriving DecidableEq

/-- View of an `AtomicFilter` state as an unsynchronized `Filter` state. -/
def AtomicFilter.toFilter (a : AtomicFilter) : Filter :=
  { blocks := a.blocks, numBlocks := a.numBlocks, k := a.k
    primes := a.primes, offsets := a.offsets, count := a.count }

/-- `NewAtomicWithParams` of bloom.go. -/
def NewAtomicWithParams (numBlocks0 k0 : Nat) : AtomicFilter :=
  let numBlocks := if numBlocks0 = 0 then 1 else numBlocks0
  match GetPrimePartition k0 with
  | some primes =>
    { blocks := List.replicate (numBlocks * BlockWords) 0
      numBlocks := numBlocks
      k := k0
      primes := primes
      offsets := ComputeOffsets primes
      count := 0 }
  | none =>
    { blocks := List.replicate (numBlocks * BlockWords) 0
      numBlocks := numBlocks
      k := 7
      primes := (GetPrimePartition 7).getD []
      offsets := ComputeOffsets ((GetPrimePartition 7).getD [])
      count := 0 }

/-- `AtomicFilter.addWithHash` of bloom.go: atomic OR per probe, fetch-add on
the counter. -/
def AtomicFilter.addWithHash (f : AtomicFilter) (blockIdx intraHash : Nat) : AtomicFilter :=
  let blockBase := blockIdx * BlockWords
  { f with
    blocks := (List.range f.k).foldl (fun bs i =>
      let bitPos := f.offsets.getD i 0 + intraHash % f.primes.getD i 0
      bs.set (blockBase + bitPos / 64)
        (bs.getD (blockBase + bitPos / 64) 0 ||| (1 <<< (bitPos % 64)))) f.blocks
    count := (f.count + 1) % 2 ^ 64 }

/-- `AtomicFilter.testWithHash` of bloom.go. -/
def AtomicFilter.testWithHash (f : AtomicFilter) (blockIdx intraHash : Nat) : Bool :=
  (List.range f.k).all fun i =>
    let bitPos := f.offsets.getD i 0 + intraHash % f.primes.getD i 0
    f.blocks.getD (blockIdx * BlockWords + bitPos / 64) 0 &&& (1 <<< (bitPos % 64)) != 0

/-- `AtomicFilter.Add` of bloom.go. -/
def AtomicFilter.Add (f : AtomicFilter) (h : Nat) : AtomicFilter :=
  f.addWithHash (hashSplit h f.numBlocks).1 (hashSplit h f.numBlocks).2

/-- `AtomicFilter.Test` of bloom.go. -/
def AtomicFilter.Test (f : AtomicFilter) (h : Nat) : Bool :=
  f.testWithHash (hashSplit h f.numBlocks).1 (hashSplit h f.numBlocks).2

/-- `AtomicFilter.TestAndAdd` of bloom.go: test, then add unconditionally. -/
def AtomicFilter.TestAndAdd (f : AtomicFilter) (h : Nat) : Bool × AtomicFilter :=
  let blockIdx := (hashSplit h f.numBlocks).1
  let intraHash := (hashSplit h f.numBlocks).2
  let present := f.testWithHash blockIdx intraHash
  (present, f.addWithHash blockIdx intraHash)

/-- `AtomicFilter.Clear` of bloom.go. -/
def AtomicFilter.Clear (f : AtomicFilter) : AtomicFilter :=
  { f with blocks := List.replicate f.blocks.length 0, count := 0 }

/-- `AtomicFilter.Count` accessor of bloom.go. -/
def AtomicFilter.Count (f : AtomicFilter) : Nat := f.count

/-- `AtomicFilter.EstimatedFillRatio` of bloom.go. -/
def AtomicFilter.EstimatedFillRatio (f : AtomicFilter) : ℚ :=
  (((f.blocks.map popcount).sum : ℚ)) / ((f.numBlocks * BlockBits : Nat) : ℚ)

/-- Placeholder shard used to totalize the Go slice indexing
`f.shards[f.shardIndex(h)]`; well-formed sharded filters never reach it. -/
def emptyAtomic : AtomicFilter :=
  { blocks := [], numBlocks := 0, k := 0, primes := [], offsets := [], count := 0 }

/-- The `ShardedAtomicFilter` of bloom.go: a list of independent atomic
shards, with `mask = numShards - 1` for fast modulo. -/
structure ShardedAtomicFilter where
  shards    : List AtomicFilter
  numShards : Nat
  mask      : Nat

/-- `ShardedAtomicFilter.shardIndex` of bloom.go: bits 32 and up of the raw
hash, masked by `numShards - 1`. -/
def ShardedAtomicFilter.shardIndex (f : ShardedAtomicFilter) (h : Nat) : Nat :=
  (h >>> 32) &&& f.mask

/-- `ShardedAtomicFilter.Add` of bloom.go: route to one shard, then use the
sharded hash split within that shard. -/
def ShardedAtomicFilter.Add (f : ShardedAtomicFilter) (h : Nat) : ShardedAtomicFilter :=
  let si := f.shardIndex h
  let shard := f.shards.getD si emptyAtomic
  let shard2 := shard.addWithHash (hashSplitSharded h shard.numBlocks).1
    (hashSplitSharded h shard.numBlocks).2
  { f with shards := f.shards.set si shard2 }

/-- `ShardedAtomicFilter.Test` of bloom.go. -/
def ShardedAtomicFilter.Test (f : ShardedAtomicFilter) (h : Nat) : Bool :=
  let si := f.shardIndex h
  let shard := f.shards.getD si emptyAtomic
  shard.testWithHash (hashSplitSharded h shard.numBlocks).1
    (hashSplitSharded h shard.numBlocks).2

/-- `ShardedAtomicFilter.TestAndAdd` of bloom.go: test on the shard, then add
unconditionally on that shard. -/
def ShardedAtomicFilter.TestAndAdd (f : ShardedAtomicFilter) (h : Nat) :
    Bool × ShardedAtomicFilter :=
  let si := f.shardIndex h
  let shard := f.shards.getD si emptyAtomic
  let blockIdx := (hashSplitSharded h shard.numBlocks).1
  let intraHash := (hashSplitSharded h shard.numBlocks).2
  let present := shard.testWithHash blockIdx intraHash
  (present, { f with shards := f.shards.set si (shard.addWithHash blockIdx intraHash) })

/-- `ShardedAtomicFilter.Count` of bloom.go: sum of the shard counters. -/
def ShardedAtomicFilter.Count (f : ShardedAtomicFilter) : Nat :=
  (f.shards.map AtomicFilter.Count).sum

/-- Serialization format version byte of serialize.go. -/
def serializeVersion : Nat := 1

/-- Header size in bytes of serialize.go: version 1 + k 4 + numBlocks 8 + count 8. -/
def headerSize : Nat := 21

/-- The `maxNumBlocks` sanity ceiling of serialize.go. -/
def maxNumBlocks : Nat := 2 ^ 50

/-- The three distinct deserialization error kinds of serialize.go. -/
inductive GloomError where
  | invalidData
  | unsupportedVersion
  | invalidK
  deriving DecidableEq

/-- Little-endian byte encoding of width `w`: the low `w` bytes of `n`,
mirroring `binary.LittleEndian.PutUint32/PutUint64`. -/
def leBytes : Nat → Nat → List Nat
  | 0, _ => []
  | w + 1, n => n % 256 :: leBytes w (n / 256)

/-- Little-endian read of `w` bytes starting at `off`, mirroring
`binary.LittleEndian.Uint32/Uint64`. -/
def readLE (data : List Nat) (off : Nat) : Nat → Nat
  | 0 => 0
  | w + 1 => data.getD off 0 + 256 * readLE data (off + 1) w

/-- `Filter.MarshalBinary` of serialize.go: version byte, k (u32 LE),
numBlocks (u64 LE), count (u64 LE), then each block word as 8 LE bytes.
The Go version also returns an always-nil error, elided here. -/
def Filter.MarshalBinary (f : Filter) : List Nat :=
  serializeVersion % 256 ::
    (leBytes 4 f.k ++ (leBytes 8 f.numBlocks ++ (leBytes 8 f.count ++
      (f.blocks.map (leBytes 8)).flatten)))

/-- `UnmarshalBinary` of serialize.go, with its validation cascade: length,
version, k, numBlocks bounds, exact total length; then field reconstruction. -/
def UnmarshalBinary (data : List Nat) : Except GloomError Filter :=
  if data.length < headerSize then .error .invalidData
  else
    let version := data.getD 0 0
    if version ≠ serializeVersion then .error .unsupportedVersion
    else
      let k := readLE data 1 4
      let numBlocks := readLE data 5 8
      let count := readLE data 13 8
      match GetPrimePartition k with
      | none => .error .invalidK
      | some primes =>
        if numBlocks = 0 then .error .invalidData
        else if numBlocks > maxNumBlocks then .error .invalidData
        else if data.length ≠ headerSize + numBlocks * BlockWords * 8 then .error .invalidData
        else .ok
          { blocks := (List.range (numBlocks * BlockWords)).map
              (fun i => readLE data (headerSize + 8 * i) 8)
            numBlocks := numBlocks
            k := k
            primes := primes
            offsets := ComputeOffsets primes
            count := count }

/-- Well-formedness of a `Filter` state: every state reachable through the
constructors and operations of bloom.go satisfies it.  It records the length
and uint64 range of the bit array, the uint64 range of the header fields, and
that `primes`/`offsets` come from the partition table for `k`. -/
def WF (f : Filter) : Prop :=
  0 < f.numBlocks ∧
  f.blocks.length = f.numBlocks * BlockWords ∧
  (∀ w ∈ f.blocks, w < 2 ^ 64) ∧
  f.count < 2 ^ 64 ∧
  f.numBlocks < 2 ^ 64 ∧
  GetPrimePartition f.k = some f.primes ∧
  f.offsets = ComputeOffsets f.primes

instance : DecidablePred WF := fun f => by unfold WF; infer_instance

/-- Well-formedness of an `AtomicFilter` state. -/
def AWF (a : AtomicFilter) : Prop := WF a.toFilter

instance : DecidablePred AWF := fun a => by unfold AWF; infer_instance

/-- Well-formedness of a `ShardedAtomicFilter` state. -/
def SWF (s : ShardedAtomicFilter) : Prop :=
  0 < s.numShards ∧
  s.shards.length = s.numShards ∧
  s.mask = s.numShards - 1 ∧
  ∀ a ∈ s.shards, AWF a

instance : DecidablePred SWF := fun s => by unfold SWF; infer_instance

/-- The `ln2` constant of params.go (the float64 literal, read exactly). -/
noncomputable def ln2 : ℝ := 0.6931471805599453

/-- The `ln2Squared` constant of params.go (the float64 literal, read exactly). -/
noncomputable def ln2Squared : ℝ := 0.4804530139182014

/-- Coercion of `expectedItems` in `OptimalParams`: 0 becomes 1. -/
def coercedItems (expectedItems : Nat) : Nat :=
  if expectedItems = 0 then 1 else expectedItems

/-- Coercion of `fpRate` in `OptimalParams`: at most 0 becomes 0.0001, at
least 1 becomes 0.99.  float64 values are modelled exactly over ℝ. -/
noncomputable def coercedFpRate (fpRate : ℝ) : ℝ :=
  if fpRate ≤ 0 then 0.0001 else if 1 ≤ fpRate then 0.99 else fpRate

/-- Step 1 of `OptimalParams` in params.go: `-ln(fpRate) / ln(2)^2`. -/
noncomputable def bitsPerItemOf (fpRate : ℝ) : ℝ :=
  -Real.log (coercedFpRate fpRate) / ln2Squared

/-- Steps 2-3 of `OptimalParams`: total bits, rounded up to whole blocks. -/
noncomputable def numBlocksOf (expectedItems : Nat) (fpRate : ℝ) : Nat :=
  (⌈(coercedItems expectedItems : ℝ) * bitsPerItemOf fpRate / (BlockBits : ℝ)⌉).toNat

/-- Step 4 of `OptimalParams`: bits per item after block rounding. -/
noncomputable def actualBitsPerItemOf (expectedItems : Nat) (fpRate : ℝ) : ℝ :=
  ((numBlocksOf expectedItems fpRate * BlockBits : Nat) : ℝ) / (coercedItems expectedItems : ℝ)

/-- Step 5 of `OptimalParams`: `k = round(actualBitsPerItem * ln2)`, clamped
by `max 3` then `min 14`. -/
noncomputable def kOf (expectedItems : Nat) (fpRate : ℝ) : Nat :=
  min (max (round (actualBitsPerItemOf expectedItems fpRate * ln2)).toNat 3) 14

/-- `OptimalParams` of params.go, returning (numBlocks, k, bitsPerItem). -/
noncomputable def OptimalParams (expectedItems : Nat) (fpRate : ℝ) : Nat × Nat × ℝ :=
  (numBlocksOf expectedItems fpRate, kOf expectedItems fpRate, bitsPerItemOf fpRate)

/-- `New` of bloom.go: size via `OptimalParams`, then `NewWithParams`. -/
noncomputable def New (expectedItems : Nat) (fpRate : ℝ) : Filter :=
  NewWithParams (OptimalParams expectedItems fpRate).1 (OptimalParams expectedItems fpRate).2.1

/-- Bit position probed at index i: `offsets[i] + intraHash % primes[i]`. -/
def probePos (f : Filter) (intraHash i : Nat) : Nat :=
  f.offsets.getD i 0 + intraHash % f.primes.getD i 0

/-- Index of the word touched by probe i. -/
def probeWord (f : Filter) (blockIdx intraHash i : Nat) : Nat :=
  blockIdx * BlockWords + probePos f intraHash i / 64

/-- Bit index within the word touched by probe i. -/
def probeBit (f : Filter) (intraHash i : Nat) : Nat :=
  probePos f intraHash i % 64

/-- Single OR-update of one word of a word list. -/
def orBit (bs : List Nat) (w b : Nat) : List Nat :=
  bs.set w (bs.getD w 0 ||| (1 <<< b))

/-- Geometric facts about a partition-table entry: positive widths, probe
ranges inside the 512-bit block, and ordered non-overlapping ranges. -/
def partitionOK (ps : List Nat) : Prop :=
  ∀ i < ps.length, 0 < ps.getD i 0 ∧
    (ComputeOffsets ps).getD i 0 + ps.getD i 0 ≤ 512 ∧
    ∀ j < i, (ComputeOffsets ps).getD j 0 + ps.getD j 0 ≤ (ComputeOffsets ps).getD i 0

instance : DecidablePred partitionOK := fun ps => by unfold partitionOK; infer_instance

/-- A sequence of Add operations, applied left to right. -/
def applyAdds (f : Filter) (hs : List Nat) : Filter := hs.foldl Filter.Add f

/-- A sequence of Add operations on the atomic variant. -/
def applyAddsAtomic (a : AtomicFilter) (hs : List Nat) : AtomicFilter :=
  hs.foldl AtomicFilter.Add a

/-- The shard a hash is routed to. -/
def shardOf (s : ShardedAtomicFilter) (h : Nat) : AtomicFilter :=
  s.shards.getD (s.shardIndex h) emptyAtomic

/-- A sequence of Add operations on the sharded variant. -/
def applyAddsSharded (s : ShardedAtomicFilter) (hs : List Nat) : ShardedAtomicFilter :=
  hs.foldl ShardedAtomicFilter.Add s

/-- A 21-byte header declaring version 1, k = 7, blockCount = 2^50, count = 0,
followed by exactly blockCount * 64 zero bytes of block data. -/
def c3Big : List Nat :=
  1 :: 7 :: 0 :: 0 :: 0 :: 0 :: 0 :: 0 :: 0 :: 0 :: 0 :: 4 :: 0 :: 0 :: 0 :: 0 :: 0 :: 0 ::
    0 :: 0 :: 0 :: List.replicate (2 ^ 56) 0

lemma blockWords_eq : BlockWords = 8 := rfl

lemma addWithHash_blocks (f : Filter) (blockIdx intraHash : Nat) :
    (f.addWithHash blockIdx intraHash).blocks =
      (List.range f.k).foldl
        (fun bs i => orBit bs (probeWord f blockIdx intraHash i) (probeBit f intraHash i))
        f.blocks := rfl

lemma addWithHash_numBlocks (f : Filter) (b ih : Nat) :
    (f.addWithHash b ih).numBlocks = f.numBlocks := rfl

lemma addWithHash_k (f : Filter) (b ih : Nat) : (f.addWithHash b ih).k = f.k := rfl

lemma addWithHash_primes (f : Filter) (b ih : Nat) :
    (f.addWithHash b ih).primes = f.primes := rfl

lemma addWithHash_offsets (f : Filter) (b ih : Nat) :
    (f.addWithHash b ih).offsets = f.offsets := rfl

lemma and_shift_ne_zero (x b : Nat) : (x &&& (1 <<< b) != 0) = x.testBit b := by
  rw [Nat.shiftLeft_eq, one_mul, Nat.and_two_pow]
  cases h : x.testBit b <;> simp [h, (Nat.two_pow_pos b).ne']

lemma testWithHash_iff (f : Filter) (blockIdx intraHash : Nat) :
    f.testWithHash blockIdx intraHash = true ↔
      ∀ i < f.k, (f.blocks.getD (probeWord f blockIdx intraHash i) 0).testBit
        (probeBit f intraHash i) = true := by
  simp only [Filter.testWithHash, List.all_eq_true, List.mem_range, and_shift_ne_zero,
    probeWord, probeBit, probePos]

lemma orBit_length (bs : List Nat) (w b : Nat) : (orBit bs w b).length = bs.length :=
  List.length_set bs w _

lemma orBit_getD_self (bs : List Nat) (w b : Nat) (hw : w < bs.length) :
    (orBit bs w b).getD w 0 = bs.getD w 0 ||| (1 <<< b) := by
  simp [orBit, List.getD_eq_getElem?_getD, List.getElem?_set_self', hw]

lemma orBit_getD_ne (bs : List Nat) (w b w' : Nat) (h : w ≠ w') :
    (orBit bs w b).getD w' 0 = bs.getD w' 0 := by
  simp [orBit, List.getD_eq_getElem?_getD, List.getElem?_set_ne h]

lemma orBit_getD_mono (bs : List Nat) (w b w' b' : Nat)
    (h : (bs.getD w' 0).testBit b' = true) :
    ((orBit bs w b).getD w' 0).testBit b' = true := by
  rcases eq_or_ne w w' with rfl | hne
  · rcases Nat.lt_or_ge w bs.length with hw | hw
    · rw [orBit_getD_self bs w b hw, Nat.testBit_or, h, Bool.true_or]
    · rw [orBit, List.set_eq_of_length_le hw]
      exact h
  · rwa [orBit_getD_ne bs w b w' hne]

lemma foldl_orBit_length (wi bi : Nat → Nat) :
    ∀ (l : List Nat) (bs : List Nat),
      (l.foldl (fun bs i => orBit bs (wi i) (bi i)) bs).length = bs.length := by
  intro l
  induction l with
  | nil => intro bs; rfl
  | cons x xs ih => intro bs; rw [List.foldl_cons, ih, orBit_length]

lemma foldl_orBit_mono (wi bi : Nat → Nat) :
    ∀ (l : List Nat) (bs : List Nat) (w b : Nat),
      (bs.getD w 0).testBit b = true →
      ((l.foldl (fun bs i => orBit bs (wi i) (bi i)) bs).getD w 0).testBit b = true := by
  intro l
  induction l with
  | nil => intro bs w b h; exact h
  | cons x xs ih =>
    intro bs w b h
    rw [List.foldl_cons]
    exact ih _ w b (orBit_getD_mono bs (wi x) (bi x) w b h)

lemma foldl_orBit_sets (wi bi : Nat → Nat) :
    ∀ (l : List Nat) (bs : List Nat), (∀ i ∈ l, wi i < bs.length) →
      ∀ i ∈ l, ((l.foldl (fun bs i => orBit bs (wi i) (bi i)) bs).getD (wi i) 0).testBit
        (bi i) = true := by
  intro l
  induction l with
  | nil => intro bs _ i hi; cases hi
  | cons x xs ih =>
    intro bs hlen i hi
    rw [List.foldl_cons]
    rcases List.mem_cons.mp hi with rfl | hmem
    · refine foldl_orBit_mono wi bi xs _ (wi i) (bi i) ?_
      rw [orBit_getD_self bs (wi i) (bi i) (hlen i hi), Nat.testBit_or]
      have h2 : (1 <<< bi i : Nat).testBit (bi i) = true := by
        rw [Nat.shiftLeft_eq, one_mul]
        exact Nat.testBit_two_pow_self
      rw [h2, Bool.or_true]
    · refine ih _ ?_ i hmem
      intro j hj
      rw [orBit_length]
      exact hlen j (List.mem_cons_of_mem x hj)

lemma foldl_orBit_frame (wi bi : Nat → Nat) :
    ∀ (l : List Nat) (bs : List Nat) (w : Nat), (∀ i ∈ l, wi i ≠ w) →
      (l.foldl (fun bs i => orBit bs (wi i) (bi i)) bs).getD w 0 = bs.getD w 0 := by
  intro l
  induction l with
  | nil => intro bs w _; rfl
  | cons x xs ih =>
    intro bs w hne
    rw [List.foldl_cons, ih _ w (fun i hi => hne i (List.mem_cons_of_mem x hi)),
      orBit_getD_ne bs (wi x) (bi x) w (hne x (List.mem_cons_self x xs))]

lemma foldl_orBit_lt (wi bi : Nat → Nat) :
    ∀ (l : List Nat) (bs : List Nat), (∀ x ∈ bs, x < 2 ^ 64) → (∀ i ∈ l, bi i < 64) →
      ∀ x ∈ l.foldl (fun bs i => orBit bs (wi i) (bi i)) bs, x < 2 ^ 64 := by
  intro l
  induction l with
  | nil => intro bs hbs _ x hx; exact hbs x hx
  | cons j js ih =>
    intro bs hbs hbi x hx
    rw [List.foldl_cons] at hx
    refine ih _ ?_ (fun i hi => hbi i (List.mem_cons_of_mem j hi)) x hx
    intro y hy
    rcases List.mem_or_eq_of_mem_set hy with hmem | rfl
    · exact hbs y hmem
    · refine Nat.or_lt_two_pow ?_ ?_
      · rcases Nat.lt_or_ge (wi j) bs.length with hw | hw
        · rw [List.getD_eq_getElem bs 0 hw]
          exact hbs _ (List.getElem_mem hw)
        · rw [List.getD_eq_default bs 0 hw]
          positivity
      · rw [Nat.shiftLeft_eq, one_mul]
        exact Nat.pow_lt_pow_right (by norm_num) (hbi j (List.mem_cons_self j js))

lemma GetPrimePartition_eq_none (k : Nat) (hk : k < 3 ∨ 14 < k) : GetPrimePartition k = none := by
  unfold GetPrimePartition primePartitions
  rw [if_neg (by omega : ¬ k = 3), if_neg (by omega : ¬ k = 4), if_neg (by omega : ¬ k = 5),
    if_neg (by omega : ¬ k = 6), if_neg (by omega : ¬ k = 7), if_neg (by omega : ¬ k = 8),
    if_neg (by omega : ¬ k = 9), if_neg (by omega : ¬ k = 10), if_neg (by omega : ¬ k = 11),
    if_neg (by omega : ¬ k = 12), if_neg (by omega : ¬ k = 13), if_neg (by omega : ¬ k = 14)]

lemma partition_spec :
    ∀ k ps, GetPrimePartition k = some ps → ps.length = k ∧ 3 ≤ k ∧ k ≤ 14 ∧ partitionOK ps := by
  intro k ps h
  by_cases hk : 3 ≤ k ∧ k ≤ 14
  · obtain ⟨hk3, hk14⟩ := hk
    interval_cases k <;>
      (norm_num [GetPrimePartition, primePartitions] at h; subst h;
       exact ⟨by decide, by decide, by decide, by decide⟩)
  · rw [GetPrimePartition_eq_none k (by omega)] at h
    cases h

lemma WF_NewWithParams (nb k : Nat) (hnb : nb < 2 ^ 64) : WF (NewWithParams nb k) := by
  unfold WF NewWithParams
  rcases hlook : GetPrimePartition k with _ | ps <;> dsimp only
  · refine ⟨?_, by simp, ?_, by positivity, ?_, by decide, rfl⟩
    · split <;> omega
    · intro w hw
      rw [List.eq_of_mem_replicate hw]
      positivity
    · split <;> omega
  · refine ⟨?_, by simp, ?_, by positivity, ?_, hlook, rfl⟩
    · split <;> omega
    · intro w hw
      rw [List.eq_of_mem_replicate hw]
      positivity
    · split <;> omega

lemma probePos_lt (f : Filter) (hf : WF f) (ih i : Nat) (hi : i < f.k) :
    probePos f ih i < 512 := by
  obtain ⟨-, -, -, -, -, hlook, hoff⟩ := hf
  obtain ⟨hlen, -, -, hok⟩ := partition_spec f.k f.primes hlook
  obtain ⟨hpos, hle, -⟩ := hok i (by omega)
  have hmod : ih % f.primes.getD i 0 < f.primes.getD i 0 := Nat.mod_lt ih hpos
  unfold probePos
  rw [hoff]
  omega

lemma probeWord_lt (f : Filter) (hf : WF f) (b ih i : Nat) (hb : b < f.numBlocks)
    (hi : i < f.k) : probeWord f b ih i < f.blocks.length := by
  have hpos := probePos_lt f hf ih i hi
  have hdiv : probePos f ih i / 64 < 8 := by omega
  obtain ⟨-, hlen, -⟩ := hf
  unfold probeWord
  rw [hlen, blockWords_eq]
  calc b * 8 + probePos f ih i / 64 < b * 8 + 8 := by omega
    _ ≤ f.numBlocks * 8 := by omega

lemma WF_addWithHash (f : Filter) (hf : WF f) (b ih : Nat) : WF (f.addWithHash b ih) := by
  obtain ⟨h1, h2, h3, h4, h5, h6, h7⟩ := hf
  refine ⟨h1, ?_, ?_, ?_, h5, h6, h7⟩
  · rw [addWithHash_blocks, foldl_orBit_length]
    exact h2
  · rw [addWithHash_blocks]
    refine foldl_orBit_lt _ _ _ _ h3 ?_
    intro i _
    unfold probeBit
    omega
  · exact Nat.mod_lt _ (by positivity)

lemma testWithHash_addWithHash_self (f : Filter) (hf : WF f) (b ih : Nat)
    (hb : b < f.numBlocks) : (f.addWithHash b ih).testWithHash b ih = true := by
  rw [testWithHash_iff]
  intro i hi
  rw [addWithHash_k] at hi
  have hpw : ∀ j ∈ List.range f.k, probeWord f b ih j < f.blocks.length := by
    intro j hj
    exact probeWord_lt f hf b ih j hb (List.mem_range.mp hj)
  have := foldl_orBit_sets (probeWord f b ih) (probeBit f ih) (List.range f.k) f.blocks hpw
    i (List.mem_range.mpr hi)
  rw [addWithHash_blocks]
  have hpe : probeWord (f.addWithHash b ih) b ih i = probeWord f b ih i := rfl
  have hbe : probeBit (f.addWithHash b ih) ih i = probeBit f ih i := rfl
  rw [hpe, hbe]
  exact this

lemma testWithHash_mono (f g : Filter) (hk : g.k = f.k) (hp : g.primes = f.primes)
    (ho : g.offsets = f.offsets)
    (hmono : ∀ w b, (f.blocks.getD w 0).testBit b = true →
      (g.blocks.getD w 0).testBit b = true)
    (bIdx ih : Nat) (h : f.testWithHash bIdx ih = true) :
    g.testWithHash bIdx ih = true := by
  rw [testWithHash_iff] at h ⊢
  intro i hi
  have hpe : probeWord g bIdx ih i = probeWord f bIdx ih i := by
    unfold probeWord probePos
    rw [hp, ho]
  have hbe : probeBit g ih i = probeBit f ih i := by
    unfold probeBit probePos
    rw [hp, ho]
  rw [hpe, hbe]
  exact hmono _ _ (h i (by omega))

lemma addWithHash_blocks_mono (f : Filter) (b ih w bb : Nat)
    (h : (f.blocks.getD w 0).testBit bb = true) :
    ((f.addWithHash b ih).blocks.getD w 0).testBit bb = true := by
  rw [addWithHash_blocks]
  exact foldl_orBit_mono _ _ _ f.blocks w bb h

lemma Add_Test_self (f : Filter) (hf : WF f) (h : Nat) : (f.Add h).Test h = true := by
  unfold Filter.Add Filter.Test
  rw [addWithHash_numBlocks]
  exact testWithHash_addWithHash_self f hf _ _
    (Nat.mod_lt _ hf.1)

lemma Test_mono_add (f : Filter) (h h' : Nat) (ht : f.Test h = true) :
    (f.Add h').Test h = true := by
  unfold Filter.Test at ht ⊢
  unfold Filter.Add
  rw [addWithHash_numBlocks]
  exact testWithHash_mono f
    (f.addWithHash (hashSplit h' f.numBlocks).1 (hashSplit h' f.numBlocks).2)
    (addWithHash_k f _ _) (addWithHash_primes f _ _) (addWithHash_offsets f _ _)
    (addWithHash_blocks_mono f _ _) _ _ ht

lemma WF_Add (f : Filter) (hf : WF f) (h : Nat) : WF (f.Add h) :=
  WF_addWithHash f hf _ _

lemma applyAdds_WF (hs : List Nat) : ∀ f, WF f → WF (applyAdds f hs) := by
  induction hs with
  | nil => intro f hf; exact hf
  | cons x xs ih => intro f hf; exact ih _ (WF_Add f hf x)

lemma applyAdds_Test_mono (hs : List Nat) :
    ∀ f h, f.Test h = true → (applyAdds f hs).Test h = true := by
  induction hs with
  | nil => intro f h ht; exact ht
  | cons x xs ih => intro f h ht; exact ih _ h (Test_mono_add f h x ht)

lemma applyAdds_numBlocks (hs : List Nat) : ∀ f, (applyAdds f hs).numBlocks = f.numBlocks := by
  induction hs with
  | nil => intro f; rfl
  | cons x xs ih =>
    intro f
    rw [applyAdds, List.foldl_cons, ← applyAdds, ih]
    rfl

lemma atomic_addWithHash_toFilter (a : AtomicFilter) (b ih : Nat) :
    (a.addWithHash b ih).toFilter = a.toFilter.addWithHash b ih := rfl

lemma atomic_testWithHash_toFilter (a : AtomicFilter) (b ih : Nat) :
    a.testWithHash b ih = a.toFilter.testWithHash b ih := rfl

lemma atomic_Add_toFilter (a : AtomicFilter) (h : Nat) :
    (a.Add h).toFilter = a.toFilter.Add h := rfl

lemma atomic_Test_toFilter (a : AtomicFilter) (h : Nat) :
    a.Test h = a.toFilter.Test h := rfl

lemma applyAddsAtomic_toFilter (hs : List Nat) :
    ∀ a, (applyAddsAtomic a hs).toFilter = applyAdds a.toFilter hs := by
  induction hs with
  | nil => intro a; rfl
  | cons x xs ih =>
    intro a
    show (applyAddsAtomic (a.Add x) xs).toFilter = applyAdds a.toFilter (x :: xs)
    rw [ih, atomic_Add_toFilter]
    rfl

lemma shardIndex_le_mask (s : ShardedAtomicFilter) (h : Nat) : s.shardIndex h ≤ s.mask :=
  Nat.and_le_right

lemma shardIndex_lt (s : ShardedAtomicFilter) (hsw : SWF s) (h : Nat) :
    s.shardIndex h < s.shards.length := by
  obtain ⟨h1, h2, h3, -⟩ := hsw
  have := shardIndex_le_mask s h
  omega

lemma getD_set_self_eq {α : Type} (l : List α) (i : Nat) (a d : α)
    (hi : i < l.length) : (l.set i a).getD i d = a := by
  simp [List.getD_eq_getElem?_getD, List.getElem?_set_self', hi]

lemma getD_set_ne_eq {α : Type} (l : List α) (i j : Nat) (a d : α)
    (hij : i ≠ j) : (l.set i a).getD j d = l.getD j d := by
  simp [List.getD_eq_getElem?_getD, List.getElem?_set_ne hij]

lemma sharded_Test_eq (s : ShardedAtomicFilter) (h : Nat) :
    s.Test h = (shardOf s h).testWithHash
      (hashSplitSharded h (shardOf s h).numBlocks).1
      (hashSplitSharded h (shardOf s h).numBlocks).2 := rfl

lemma sharded_Add_shards (s : ShardedAtomicFilter) (h : Nat) :
    (s.Add h).shards = s.shards.set (s.shardIndex h)
      ((shardOf s h).addWithHash (hashSplitSharded h (shardOf s h).numBlocks).1
        (hashSplitSharded h (shardOf s h).numBlocks).2) := rfl

lemma shardIndex_Add (s : ShardedAtomicFilter) (h h' : Nat) :
    (s.Add h').shardIndex h = s.shardIndex h := rfl

lemma AWF_addWithHash (a : AtomicFilter) (ha : AWF a) (b ih : Nat) :
    AWF (a.addWithHash b ih) := by
  unfold AWF
  rw [atomic_addWithHash_toFilter]
  exact WF_addWithHash a.toFilter ha b ih

lemma SWF_shard_AWF (s : ShardedAtomicFilter) (hsw : SWF s) (h : Nat) :
    AWF (shardOf s h) := by
  have hlt := shardIndex_lt s hsw h
  unfold shardOf
  rw [List.getD_eq_getElem s.shards emptyAtomic hlt]
  exact hsw.2.2.2 _ (List.getElem_mem hlt)

lemma SWF_Add (s : ShardedAtomicFilter) (hsw : SWF s) (h : Nat) : SWF (s.Add h) := by
  obtain ⟨h1, h2, h3, h4⟩ := hsw
  refine ⟨h1, ?_, h3, ?_⟩
  · rw [sharded_Add_shards]
    simpa using h2
  · intro a ha
    rw [sharded_Add_shards] at ha
    rcases List.mem_or_eq_of_mem_set ha with hmem | rfl
    · exact h4 a hmem
    · exact AWF_addWithHash _ (SWF_shard_AWF s ⟨h1, h2, h3, h4⟩ h) _ _

lemma shardOf_Add_self (s : ShardedAtomicFilter) (h : Nat)
    (hlt : s.shardIndex h < s.shards.length) :
    shardOf (s.Add h) h = (shardOf s h).addWithHash
      (hashSplitSharded h (shardOf s h).numBlocks).1
      (hashSplitSharded h (shardOf s h).numBlocks).2 := by
  unfold shardOf
  rw [shardIndex_Add, sharded_Add_shards]
  exact getD_set_self_eq s.shards (s.shardIndex h) _ emptyAtomic hlt

lemma sharded_Add_Test_self (s : ShardedAtomicFilter) (hsw : SWF s) (h : Nat) :
    (s.Add h).Test h = true := by
  have hlt := shardIndex_lt s hsw h
  have hAWF := SWF_shard_AWF s hsw h
  rw [sharded_Test_eq, shardOf_Add_self s h hlt]
  have hnb : ((shardOf s h).addWithHash (hashSplitSharded h (shardOf s h).numBlocks).1
      (hashSplitSharded h (shardOf s h).numBlocks).2).numBlocks = (shardOf s h).numBlocks := rfl
  rw [hnb, atomic_testWithHash_toFilter, atomic_addWithHash_toFilter]
  exact testWithHash_addWithHash_self (shardOf s h).toFilter hAWF _ _
    (Nat.mod_lt _ hAWF.1)

lemma sharded_Test_mono (s : ShardedAtomicFilter) (hsw : SWF s) (h h' : Nat)
    (ht : s.Test h = true) : (s.Add h').Test h = true := by
  have hlt' := shardIndex_lt s hsw h'
  rw [sharded_Test_eq] at ht ⊢
  rcases eq_or_ne (s.shardIndex h') (s.shardIndex h) with heq | hne
  · have hof : shardOf (s.Add h') h = (shardOf s h).addWithHash
        (hashSplitSharded h' (shardOf s h').numBlocks).1
        (hashSplitSharded h' (shardOf s h').numBlocks).2 := by
      unfold shardOf
      rw [shardIndex_Add, sharded_Add_shards, ← heq]
      rw [getD_set_self_eq s.shards (s.shardIndex h') _ emptyAtomic hlt']
      unfold shardOf
      rw [heq]
    rw [hof]
    have heqShard : shardOf s h' = shardOf s h := by unfold shardOf; rw [heq]
    rw [heqShard]
    have hnb : ((shardOf s h).addWithHash (hashSplitSharded h' (shardOf s h).numBlocks).1
        (hashSplitSharded h' (shardOf s h).numBlocks).2).numBlocks =
        (shardOf s h).numBlocks := rfl
    rw [hnb]
    rw [atomic_testWithHash_toFilter] at ht ⊢
    rw [atomic_addWithHash_toFilter]
    exact testWithHash_mono (shardOf s h).toFilter
      ((shardOf s h).toFilter.addWithHash (hashSplitSharded h' (shardOf s h).numBlocks).1
        (hashSplitSharded h' (shardOf s h).numBlocks).2)
      rfl rfl rfl (addWithHash_blocks_mono (shardOf s h).toFilter _ _) _ _ ht
  · have hof : shardOf (s.Add h') h = shardOf s h := by
      unfold shardOf
      rw [shardIndex_Add, sharded_Add_shards]
      exact getD_set_ne_eq s.shards (s.shardIndex h') (s.shardIndex h) _ emptyAtomic hne
    rw [hof]
    exact ht

lemma applyAddsSharded_SWF (hs : List Nat) :
    ∀ s, SWF s → SWF (applyAddsSharded s hs) := by
  induction hs with
  | nil => intro s hsw; exact hsw
  | cons x xs ih => intro s hsw; exact ih _ (SWF_Add s hsw x)

lemma applyAddsSharded_Test_mono (hs : List Nat) :
    ∀ s, SWF s → ∀ h, s.Test h = true → (applyAddsSharded s hs).Test h = true := by
  induction hs with
  | nil => intro s _ h ht; exact ht
  | cons x xs ih =>
    intro s hsw h ht
    exact ih _ (SWF_Add s hsw x) h (sharded_Test_mono s hsw h x ht)

lemma headerSize_eq : headerSize = 21 := rfl

lemma serializeVersion_eq : serializeVersion = 1 := rfl

lemma maxNumBlocks_eq : maxNumBlocks = 2 ^ 50 := rfl

lemma leBytes_length : ∀ (w n : Nat), (leBytes w n).length = w := by
  intro w
  induction w with
  | zero => intro n; rfl
  | succ w ih => intro n; simp [leBytes, ih]

lemma readLE_cons (x : Nat) (l : List Nat) :
    ∀ (w off : Nat), readLE (x :: l) (off + 1) w = readLE l off w := by
  intro w
  induction w with
  | zero => intro off; rfl
  | succ w ih =>
    intro off
    rw [readLE, readLE, List.getD_cons_succ, ih (off + 1)]

lemma readLE_append : ∀ (pre rest : List Nat) (off w : Nat),
    readLE (pre ++ rest) (pre.length + off) w = readLE rest off w := by
  intro pre
  induction pre with
  | nil => intro rest off w; simp
  | cons x xs ih =>
    intro rest off w
    show readLE (x :: (xs ++ rest)) (xs.length + 1 + off) w = readLE rest off w
    rw [show xs.length + 1 + off = (xs.length + off) + 1 from by omega, readLE_cons, ih]

lemma readLE_leBytes : ∀ (w n : Nat) (rest : List Nat),
    readLE (leBytes w n ++ rest) 0 w = n % 2 ^ (8 * w) := by
  intro w
  induction w with
  | zero => intro n rest; simp [readLE, Nat.mod_one]
  | succ w ih =>
    intro n rest
    show readLE (n % 256 :: (leBytes w (n / 256) ++ rest)) 0 (w + 1) = n % 2 ^ (8 * (w + 1))
    rw [readLE, List.getD_cons_zero, show (0 + 1 : Nat) = 0 + 1 from rfl, readLE_cons,
      ih (n / 256) rest,
      show (2 : Nat) ^ (8 * (w + 1)) = 256 * 2 ^ (8 * w) from by ring]
    exact Nat.mod_mul.symm

lemma marshal_version (f : Filter) : f.MarshalBinary.getD 0 0 = 1 := rfl

lemma marshal_read_k (f : Filter) : readLE f.MarshalBinary 1 4 = f.k % 2 ^ 32 := by
  show readLE (serializeVersion % 256 :: (leBytes 4 f.k ++ _)) (0 + 1) 4 = f.k % 2 ^ 32
  rw [readLE_cons, readLE_leBytes]

lemma marshal_read_numBlocks (f : Filter) :
    readLE f.MarshalBinary 5 8 = f.numBlocks % 2 ^ 64 := by
  have e1 := readLE_append (leBytes 4 f.k)
    (leBytes 8 f.numBlocks ++ (leBytes 8 f.count ++ (f.blocks.map (leBytes 8)).flatten)) 0 8
  rw [leBytes_length] at e1
  norm_num at e1
  show readLE (serializeVersion % 256 ::
    (leBytes 4 f.k ++ (leBytes 8 f.numBlocks ++ (leBytes 8 f.count ++
      (f.blocks.map (leBytes 8)).flatten)))) (4 + 1) 8 = f.numBlocks % 2 ^ 64
  rw [readLE_cons, e1, readLE_leBytes]

lemma marshal_read_count (f : Filter) :
    readLE f.MarshalBinary 13 8 = f.count % 2 ^ 64 := by
  have e1 := readLE_append (leBytes 4 f.k)
    (leBytes 8 f.numBlocks ++ (leBytes 8 f.count ++ (f.blocks.map (leBytes 8)).flatten)) 8 8
  rw [leBytes_length] at e1
  norm_num at e1
  have e2 := readLE_append (leBytes 8 f.numBlocks)
    (leBytes 8 f.count ++ (f.blocks.map (leBytes 8)).flatten) 0 8
  rw [leBytes_length] at e2
  norm_num at e2
  show readLE (serializeVersion % 256 ::
    (leBytes 4 f.k ++ (leBytes 8 f.numBlocks ++ (leBytes 8 f.count ++
      (f.blocks.map (leBytes 8)).flatten)))) (12 + 1) 8 = f.count % 2 ^ 64
  rw [readLE_cons, e1, e2, readLE_leBytes]

lemma flat_read : ∀ (ws : List Nat), (∀ w ∈ ws, w < 2 ^ 64) →
    ∀ i < ws.length, readLE ((ws.map (leBytes 8)).flatten) (8 * i) 8 = ws.getD i 0 := by
  intro ws
  induction ws with
  | nil => intro _ i hi; cases hi
  | cons w ws ih =>
    intro hlt i hi
    cases i with
    | zero =>
      show readLE (leBytes 8 w ++ (ws.map (leBytes 8)).flatten) (8 * 0) 8 = w
      rw [Nat.mul_zero, readLE_leBytes]
      exact Nat.mod_eq_of_lt (hlt w (List.mem_cons_self w ws))
    | succ i =>
      show readLE (leBytes 8 w ++ (ws.map (leBytes 8)).flatten) (8 * (i + 1)) 8 =
        ws.getD i 0
      rw [show 8 * (i + 1) = (leBytes 8 w).length + 8 * i from by rw [leBytes_length]; ring,
        readLE_append]
      exact ih (fun x hx => hlt x (List.mem_cons_of_mem w hx)) i (by simpa using hi)

lemma flat_length : ∀ (ws : List Nat), ((ws.map (leBytes 8)).flatten).length = 8 * ws.length := by
  intro ws
  induction ws with
  | nil => rfl
  | cons w ws ih =>
    show ((leBytes 8 w ++ (ws.map (leBytes 8)).flatten)).length = 8 * (ws.length + 1)
    rw [List.length_append, leBytes_length, ih]
    ring

lemma marshal_length (f : Filter) : f.MarshalBinary.length = 21 + 8 * f.blocks.length := by
  show (serializeVersion % 256 ::
    (leBytes 4 f.k ++ (leBytes 8 f.numBlocks ++ (leBytes 8 f.count ++
      (f.blocks.map (leBytes 8)).flatten)))).length = 21 + 8 * f.blocks.length
  rw [List.length_cons, List.length_append, List.length_append, List.length_append,
    leBytes_length, leBytes_length, leBytes_length, flat_length]
  ring

lemma marshal_read_block (f : Filter) (hws : ∀ w ∈ f.blocks, w < 2 ^ 64) :
    ∀ i < f.blocks.length, readLE f.MarshalBinary (21 + 8 * i) 8 = f.blocks.getD i 0 := by
  intro i hi
  have e1 := readLE_append (leBytes 4 f.k)
    (leBytes 8 f.numBlocks ++ (leBytes 8 f.count ++ (f.blocks.map (leBytes 8)).flatten))
    (16 + 8 * i) 8
  rw [leBytes_length] at e1
  have e2 := readLE_append (leBytes 8 f.numBlocks)
    (leBytes 8 f.count ++ (f.blocks.map (leBytes 8)).flatten) (8 + 8 * i) 8
  rw [leBytes_length] at e2
  have e3 := readLE_append (leBytes 8 f.count) ((f.blocks.map (leBytes 8)).flatten) (8 * i) 8
  rw [leBytes_length] at e3
  unfold Filter.MarshalBinary
  rw [show 21 + 8 * i = 20 + 8 * i + 1 from by omega, readLE_cons,
    show 20 + 8 * i = 4 + (16 + 8 * i) from by omega, e1,
    show 16 + 8 * i = 8 + (8 + 8 * i) from by omega, e2, e3]
  exact flat_read f.blocks hws i hi

lemma marshal_roundtrip (f : Filter) (hf : WF f) (hceil : f.numBlocks ≤ maxNumBlocks) :
    UnmarshalBinary f.MarshalBinary = .ok f := by
  obtain ⟨h1, h2, h3, h4, h5, h6, h7⟩ := hf
  have hk14 := (partition_spec f.k f.primes h6).2.2.1
  have hlen := marshal_length f
  rw [blockWords_eq] at h2
  have hrk : readLE f.MarshalBinary 1 4 = f.k := by
    rw [marshal_read_k]
    exact Nat.mod_eq_of_lt (lt_of_le_of_lt hk14 (by norm_num))
  have hrn : readLE f.MarshalBinary 5 8 = f.numBlocks := by
    rw [marshal_read_numBlocks]
    exact Nat.mod_eq_of_lt h5
  have hrc : readLE f.MarshalBinary 13 8 = f.count := by
    rw [marshal_read_count]
    exact Nat.mod_eq_of_lt h4
  have hblocks : (List.range (f.numBlocks * 8)).map
      (fun i => readLE f.MarshalBinary (21 + 8 * i) 8) = f.blocks := by
    apply List.ext_getElem
    · simp [h2]
    · intro i hi1 hi2
      simp only [List.getElem_map, List.getElem_range]
      rw [marshal_read_block f h3 i hi2]
      exact List.getD_eq_getElem f.blocks 0 hi2
  rw [maxNumBlocks_eq] at hceil
  simp only [UnmarshalBinary, hrk, hrn, hrc, marshal_version, h6, serializeVersion_eq,
    headerSize_eq, maxNumBlocks_eq, blockWords_eq, hlen]
  rw [if_neg (by omega : ¬ (21 + 8 * f.blocks.length < 21))]
  rw [if_neg (by omega : ¬ (1 : Nat) ≠ 1)]
  rw [if_neg (by omega : ¬ f.numBlocks = 0)]
  rw [if_neg (not_lt.mpr hceil)]
  rw [if_neg (by omega : ¬ 21 + 8 * f.blocks.length ≠ 21 + f.numBlocks * 8 * 8)]
  rw [hblocks, ← h7]

lemma marshal_decode_big (f : Filter) (hwf : WF f) (hbig : maxNumBlocks < f.numBlocks) :
    UnmarshalBinary f.MarshalBinary = .error .invalidData := by
  obtain ⟨h1, h2, h3, h4, h5, h6, h7⟩ := hwf
  have hk14 := (partition_spec f.k f.primes h6).2.2.1
  have hlen := marshal_length f
  have hrk : readLE f.MarshalBinary 1 4 = f.k := by
    rw [marshal_read_k]
    exact Nat.mod_eq_of_lt (lt_of_le_of_lt hk14 (by norm_num))
  have hrn : readLE f.MarshalBinary 5 8 = f.numBlocks := by
    rw [marshal_read_numBlocks]
    exact Nat.mod_eq_of_lt h5
  rw [maxNumBlocks_eq] at hbig
  simp only [UnmarshalBinary, hrk, hrn, marshal_version, h6, serializeVersion_eq,
    headerSize_eq, maxNumBlocks_eq, hlen]
  rw [if_neg (by omega : ¬ (21 + 8 * f.blocks.length < 21))]
  rw [if_neg (by omega : ¬ (1 : Nat) ≠ 1)]
  rw [if_neg (by omega : ¬ f.numBlocks = 0)]
  rw [if_pos hbig]

lemma unmarshal_short (data : List Nat) (h : data.length < 21) :
    UnmarshalBinary data = .error .invalidData := by
  simp only [UnmarshalBinary, headerSize_eq]
  rw [if_pos h]

lemma unmarshal_version (data : List Nat) (hlen : ¬ data.length < 21)
    (hv : data.getD 0 0 ≠ 1) : UnmarshalBinary data = .error .unsupportedVersion := by
  simp only [UnmarshalBinary, headerSize_eq, serializeVersion_eq]
  rw [if_neg hlen, if_pos hv]

lemma unmarshal_badk (data : List Nat) (hlen : ¬ data.length < 21)
    (hv : data.getD 0 0 = 1) (hk : GetPrimePartition (readLE data 1 4) = none) :
    UnmarshalBinary data = .error .invalidK := by
  simp only [UnmarshalBinary, headerSize_eq, serializeVersion_eq, hv, hk]
  rw [if_neg hlen, if_neg (by omega : ¬ (1 : Nat) ≠ 1)]

lemma unmarshal_zero (data : List Nat) (hlen : ¬ data.length < 21)
    (hv : data.getD 0 0 = 1) (ps : List Nat)
    (hk : GetPrimePartition (readLE data 1 4) = some ps) (h0 : readLE data 5 8 = 0) :
    UnmarshalBinary data = .error .invalidData := by
  simp only [UnmarshalBinary, headerSize_eq, serializeVersion_eq, hv, hk]
  rw [if_neg hlen, if_neg (by omega : ¬ (1 : Nat) ≠ 1), if_pos h0]

lemma unmarshal_big (data : List Nat) (hlen : ¬ data.length < 21)
    (hv : data.getD 0 0 = 1) (ps : List Nat)
    (hk : GetPrimePartition (readLE data 1 4) = some ps)
    (hbig : maxNumBlocks < readLE data 5 8) :
    UnmarshalBinary data = .error .invalidData := by
  simp only [UnmarshalBinary, headerSize_eq, serializeVersion_eq, hv, hk]
  rw [if_neg hlen, if_neg (by omega : ¬ (1 : Nat) ≠ 1),
    if_neg (by rw [maxNumBlocks_eq] at hbig; omega : ¬ readLE data 5 8 = 0), if_pos hbig]

lemma unmarshal_mismatch (data : List Nat) (hlen : ¬ data.length < 21)
    (hv : data.getD 0 0 = 1) (ps : List Nat)
    (hk : GetPrimePartition (readLE data 1 4) = some ps)
    (h0 : readLE data 5 8 ≠ 0) (hle : ¬ maxNumBlocks < readLE data 5 8)
    (hne : data.length ≠ 21 + readLE data 5 8 * 64) :
    UnmarshalBinary data = .error .invalidData := by
  simp only [UnmarshalBinary, headerSize_eq, serializeVersion_eq, hv, hk, blockWords_eq]
  rw [if_neg hlen, if_neg (by omega : ¬ (1 : Nat) ≠ 1), if_neg h0, if_neg hle,
    if_pos (by omega : ¬ data.length = 21 + readLE data 5 8 * 8 * 8)]

lemma unmarshal_ok (data : List Nat) (hlen : ¬ data.length < 21)
    (hv : data.getD 0 0 = 1) (ps : List Nat)
    (hk : GetPrimePartition (readLE data 1 4) = some ps)
    (h0 : readLE data 5 8 ≠ 0) (hle : ¬ maxNumBlocks < readLE data 5 8)
    (heq : data.length = 21 + readLE data 5 8 * 64) :
    (UnmarshalBinary data).isOk = true := by
  simp only [UnmarshalBinary, headerSize_eq, serializeVersion_eq, hv, hk, blockWords_eq]
  rw [if_neg hlen, if_neg (by omega : ¬ (1 : Nat) ≠ 1), if_neg h0, if_neg hle,
    if_neg (by omega : ¬ data.length ≠ 21 + readLE data 5 8 * 8 * 8)]
  rfl

lemma clear_Test_false (f : Filter) (hk : 0 < f.k) (h : Nat) : f.Clear.Test h = false := by
  rw [Bool.eq_false_iff]
  intro habs
  unfold Filter.Test at habs
  rw [testWithHash_iff] at habs
  have h0 := habs 0 hk
  have hz : (Filter.Clear f).blocks.getD
      (probeWord f.Clear (hashSplit h f.Clear.numBlocks).1 (hashSplit h f.Clear.numBlocks).2 0) 0
      = 0 := by
    show (List.replicate f.blocks.length 0).getD _ 0 = 0
    rcases Nat.lt_or_ge (probeWord f.Clear (hashSplit h f.Clear.numBlocks).1
        (hashSplit h f.Clear.numBlocks).2 0) f.blocks.length with hlt | hge
    · rw [List.getD_eq_getElem _ 0 (by simpa using hlt)]
      exact List.getElem_replicate 0 _
    · exact List.getD_eq_default _ 0 (by simpa using hge)
  rw [hz] at h0
  simp [Nat.zero_testBit] at h0

lemma clear_count (f : Filter) : f.Clear.count = 0 := rfl

lemma clear_words (f : Filter) : ∀ w ∈ f.Clear.blocks, w = 0 := by
  intro w hw
  exact List.eq_of_mem_replicate hw

lemma clear_fill (f : Filter) : f.Clear.EstimatedFillRatio = 0 := by
  unfold Filter.EstimatedFillRatio
  have hmap : (f.Clear.blocks.map popcount).sum = 0 := by
    show ((List.replicate f.blocks.length 0).map popcount).sum = 0
    rw [List.map_replicate]
    simp [show popcount 0 = 0 from rfl]
  rw [hmap]
  simp

lemma coercedFpRate_mem (r : ℝ) : 0 < coercedFpRate r ∧ coercedFpRate r < 1 := by
  unfold coercedFpRate
  split_ifs with h1 h2
  · norm_num
  · norm_num
  · constructor <;> linarith [not_le.mp h1, not_le.mp h2]

lemma ln2Squared_pos : (0 : ℝ) < ln2Squared := by
  unfold ln2Squared
  norm_num

lemma bitsPerItem_pos (r : ℝ) : 0 < bitsPerItemOf r := by
  unfold bitsPerItemOf
  obtain ⟨hp0, hp1⟩ := coercedFpRate_mem r
  have hlog := Real.log_neg hp0 hp1
  have hln := ln2Squared_pos
  have hnum : 0 < -Real.log (coercedFpRate r) := by linarith
  exact div_pos hnum hln

lemma coercedItems_pos (n : Nat) : 0 < coercedItems n := by
  unfold coercedItems
  split <;> omega

lemma numBlocksOf_pos (n : Nat) (r : ℝ) : 1 ≤ numBlocksOf n r := by
  unfold numBlocksOf
  have hx : (0 : ℝ) < (coercedItems n : ℝ) * bitsPerItemOf r / (BlockBits : ℝ) := by
    have h1 : (0 : ℝ) < (coercedItems n : ℝ) := by
      exact_mod_cast coercedItems_pos n
    have h2 := bitsPerItem_pos r
    have h3 : (0 : ℝ) < (BlockBits : ℝ) := by
      show (0 : ℝ) < ((512 : Nat) : ℝ)
      norm_num
    positivity
  have hc : 0 < ⌈(coercedItems n : ℝ) * bitsPerItemOf r / (BlockBits : ℝ)⌉ :=
    Int.ceil_pos.mpr hx
  omega

lemma optimalParams_congr_fp (n : Nat) (r r2 : ℝ)
    (hc : coercedFpRate r = coercedFpRate r2) : OptimalParams n r = OptimalParams n r2 := by
  unfold OptimalParams kOf actualBitsPerItemOf numBlocksOf bitsPerItemOf
  rw [hc]

lemma coercedFpRate_nonpos (r : ℝ) (hr : r ≤ 0) : coercedFpRate r = 0.0001 := by
  unfold coercedFpRate
  rw [if_pos hr]

lemma coercedFpRate_big (r : ℝ) (hr : 1 ≤ r) : coercedFpRate r = 0.99 := by
  unfold coercedFpRate
  rw [if_neg (by linarith), if_pos hr]

lemma coercedFpRate_default_low : coercedFpRate 0.0001 = 0.0001 := by
  unfold coercedFpRate
  rw [if_neg (by norm_num), if_neg (by norm_num)]

lemma coercedFpRate_default_high : coercedFpRate 0.99 = 0.99 := by
  unfold coercedFpRate
  rw [if_neg (by norm_num), if_neg (by norm_num)]

lemma atomic_Clear_toFilter (a : AtomicFilter) : a.Clear.toFilter = a.toFilter.Clear := rfl

lemma atomic_fill_toFilter (a : AtomicFilter) :
    a.EstimatedFillRatio = a.toFilter.EstimatedFillRatio := rfl

lemma atomic_count_toFilter (a : AtomicFilter) : a.Count = a.toFilter.Count := rfl

lemma c3Big_length : c3Big.length = 21 + 2 ^ 56 := by
  unfold c3Big
  rw [List.length_cons, List.length_cons, List.length_cons, List.length_cons,
    List.length_cons, List.length_cons, List.length_cons, List.length_cons,
    List.length_cons, List.length_cons, List.length_cons, List.length_cons,
    List.length_cons, List.length_cons, List.length_cons, List.length_cons,
    List.length_cons, List.length_cons, List.length_cons, List.length_cons,
    List.length_cons, List.length_replicate]
  norm_num

lemma c3Big_version : c3Big.getD 0 0 = 1 := rfl

lemma c3Big_k : readLE c3Big 1 4 = 7 := rfl

lemma c3Big_numBlocks : readLE c3Big 5 8 = 2 ^ 50 := rfl

/-- C4: TestAndAdd on every variant returns the presence result computed
before any bits are set; the unsynchronized Filter then adds only if the key
was absent (count unchanged when the result is true), whereas the atomic
variant unconditionally performs the Add (count always increases by one,
modulo uint64 wrap), and the sharded variant adds unconditionally on the
routed shard. -/
theorem C4_testAndAdd (f : Filter) (a : AtomicFilter) (s : ShardedAtomicFilter) (h : Nat) :
    (f.TestAndAdd h).1 = f.Test h ∧
    (f.TestAndAdd h).2 = (if f.Test h then f else f.Add h) ∧
    (f.TestAndAdd h).2.count = (if f.Test h then f.count else (f.count + 1) % 2 ^ 64) ∧
    (a.TestAndAdd h).1 = a.Test h ∧
    (a.TestAndAdd h).2 = a.Add h ∧
    (a.TestAndAdd h).2.count = (a.count + 1) % 2 ^ 64 ∧
    (s.TestAndAdd h).1 = s.Test h ∧
    (s.TestAndAdd h).2 = s.Add h := by
  refine ⟨rfl, rfl, ?_, rfl, rfl, rfl, rfl, rfl⟩
  by_cases ht : f.Test h
  · rw [if_pos ht]
    show (if f.Test h then f else f.Add h).count = f.count
    rw [if_pos ht]
  · rw [if_neg ht]
    show (if f.Test h then f else f.Add h).count = (f.count + 1) % 2 ^ 64
    rw [if_neg ht]
    rfl

/-- C5: for every k from 3 to 14, the partition table entry holds exactly k
pairwise-distinct positive integers summing to 512; for even k all values are
prime; for odd k exactly one value is non-prime and it is even; lookup
outside 3..14 returns none. -/
theorem C5_partition_table (k : Nat) :
    (3 ≤ k → k ≤ 14 →
      ∃ ps, GetPrimePartition k = some ps ∧ ps.length = k ∧ ps.Nodup ∧
        (∀ x ∈ ps, 0 < x) ∧ ps.sum = 512 ∧
        (k % 2 = 0 → ∀ x ∈ ps, Nat.Prime x) ∧
        (k % 2 = 1 → (ps.countP (fun x => decide (¬ Nat.Prime x)) = 1 ∧
          ∀ x ∈ ps, ¬ Nat.Prime x → x % 2 = 0))) ∧
    (k < 3 ∨ 14 < k → GetPrimePartition k = none) := by
  refine ⟨?_, fun hk => GetPrimePartition_eq_none k hk⟩
  intro h3 h14
  interval_cases k <;>
    exact ⟨_, rfl, by decide, by decide, by decide, by decide, by decide, by decide⟩

/-- C5 witness: instantiation at k = 4 (in range) and k = 15 (out of range). -/
theorem C5_partition_table_witness :
    (∃ ps, GetPrimePartition 4 = some ps ∧ ps.length = 4 ∧ ps.Nodup ∧
      (∀ x ∈ ps, 0 < x) ∧ ps.sum = 512 ∧
      (4 % 2 = 0 → ∀ x ∈ ps, Nat.Prime x) ∧
      (4 % 2 = 1 → (ps.countP (fun x => decide (¬ Nat.Prime x)) = 1 ∧
        ∀ x ∈ ps, ¬ Nat.Prime x → x % 2 = 0))) ∧
    GetPrimePartition 15 = none :=
  ⟨(C5_partition_table 4).1 (by decide) (by decide),
   (C5_partition_table 15).2 (by decide)⟩

/-- C6: hash derivation uses non-overlapping bit ranges: non-sharded block
index is (h >>> 32) mod blockCount with the low 32 bits as intra-block hash;
the sharded variant selects the shard from bits 32-47 (via the power-of-two
mask) and the block from bits 48-63 mod the shard's blockCount. -/
theorem C6_hash_ranges (h h2 nb j : Nat) (s : ShardedAtomicFilter) :
    hashSplit h nb = ((h >>> 32) % nb, h % 2 ^ 32) ∧
    hashSplitSharded h nb = ((h >>> 48) % nb, h % 2 ^ 32) ∧
    (s.mask = 2 ^ j - 1 → j ≤ 16 →
      (s.shardIndex h = ((h >>> 32) % 2 ^ 16) % 2 ^ j ∧
       ((h >>> 32) % 2 ^ 16 = (h2 >>> 32) % 2 ^ 16 → s.shardIndex h = s.shardIndex h2))) ∧
    (h >>> 48 = h2 >>> 48 → (hashSplitSharded h nb).1 = (hashSplitSharded h2 nb).1) ∧
    (h % 2 ^ 32 = h2 % 2 ^ 32 → (hashSplit h nb).2 = (hashSplit h2 nb).2) := by
  have hmain : ∀ x : Nat, s.mask = 2 ^ j - 1 → j ≤ 16 →
      s.shardIndex x = ((x >>> 32) % 2 ^ 16) % 2 ^ j := by
    intro x hm hj
    unfold ShardedAtomicFilter.shardIndex
    rw [hm, Nat.and_pow_two_sub_one_eq_mod]
    rw [Nat.mod_mod_of_dvd _ (pow_dvd_pow 2 hj)]
  refine ⟨rfl, rfl, fun hm hj => ⟨hmain h hm hj, fun hbits => ?_⟩, fun htop => ?_, fun hlow => ?_⟩
  · rw [hmain h hm hj, hmain h2 hm hj, hbits]
  · show (h >>> 48) % nb = (h2 >>> 48) % nb
    rw [htop]
  · show h % 2 ^ 32 = h2 % 2 ^ 32
    exact hlow

/-- C6 witness: concrete instantiation, mask 3 = 2^2 - 1. -/
theorem C6_hash_ranges_witness :
    ShardedAtomicFilter.shardIndex ⟨[], 4, 3⟩ 12884901893 =
      ((12884901893 >>> 32) % 2 ^ 16) % 2 ^ 2 :=
  ((C6_hash_ranges 12884901893 0 1 2 ⟨[], 4, 3⟩).2.2.1 (by decide) (by decide)).1

/-- C7: OptimalParams is deterministic and pure; expectedItems 0 is coerced
to 1, fpRate at most 0 to 0.0001 and at least 1 to 0.99; the returned
blockCount is at least 1; the returned k is round(actualBitsPerItem * ln2)
clamped to [3, 14].  float64 arithmetic is modelled exactly over ℝ. -/
theorem C7_optimal_params (n : Nat) (r : ℝ) :
    OptimalParams 0 r = OptimalParams 1 r ∧
    (r ≤ 0 → OptimalParams n r = OptimalParams n 0.0001) ∧
    (1 ≤ r → OptimalParams n r = OptimalParams n 0.99) ∧
    1 ≤ (OptimalParams n r).1 ∧
    (OptimalParams n r).2.1 =
      min (max (round (actualBitsPerItemOf n r * ln2)).toNat 3) 14 ∧
    3 ≤ (OptimalParams n r).2.1 ∧ (OptimalParams n r).2.1 ≤ 14 ∧
    (∀ n2 r2, n = n2 → r = r2 → OptimalParams n r = OptimalParams n2 r2) := by
  refine ⟨rfl, ?_, ?_, numBlocksOf_pos n r, rfl, ?_, ?_, ?_⟩
  · intro hr
    exact optimalParams_congr_fp n r 0.0001
      (by rw [coercedFpRate_nonpos r hr, coercedFpRate_default_low])
  · intro hr
    exact optimalParams_congr_fp n r 0.99
      (by rw [coercedFpRate_big r hr, coercedFpRate_default_high])
  · show 3 ≤ kOf n r
    unfold kOf
    omega
  · show kOf n r ≤ 14
    unfold kOf
    omega
  · intro n2 r2 e1 e2
    rw [e1, e2]

/-- C7 witness: the fpRate coercion at the concrete input -1. -/
theorem C7_optimal_params_witness : OptimalParams 5 (-1) = OptimalParams 5 0.0001 :=
  (C7_optimal_params 5 (-1)).2.1 (neg_nonpos.mpr zero_le_one)

/-- C8: for every well-formed filter, block index below blockCount, probe
index below k, and arbitrary intra-block hash, the probed bit position
offsets[i] + intraHash % primes[i] is below 512, and the touched word index
lies within the allocated bit array, so Add/Test/TestAndAdd are total with
no reachable bounds failure. -/
theorem C8_probe_bounds (f : Filter) (hf : WF f) (bIdx ih i : Nat)
    (hb : bIdx < f.numBlocks) (hi : i < f.k) :
    f.offsets.getD i 0 + ih % f.primes.getD i 0 < 512 ∧
    bIdx * BlockWords + (f.offsets.getD i 0 + ih % f.primes.getD i 0) / 64 <
      f.blocks.length :=
  ⟨probePos_lt f hf ih i hi, probeWord_lt f hf bIdx ih i hb hi⟩

/-- C8 witness: concrete instantiation on a freshly constructed filter. -/
theorem C8_probe_bounds_witness :
    (NewWithParams 1 3).offsets.getD 1 0 + 12345 % (NewWithParams 1 3).primes.getD 1 0 < 512 ∧
    0 * BlockWords + ((NewWithParams 1 3).offsets.getD 1 0 +
      12345 % (NewWithParams 1 3).primes.getD 1 0) / 64 < (NewWithParams 1 3).blocks.length :=
  C8_probe_bounds (NewWithParams 1 3) (WF_NewWithParams 1 3 (by decide)) 0 12345 1
    (by decide) (by decide)

/-- C9: after Clear on the unsynchronized or atomic variant, every word of
the bit array is zero, the counter is zero, Count returns 0,
EstimatedFillRatio returns 0, and Test returns false for every key (hence
for every previously added key). -/
theorem C9_clear (f : Filter) (a : AtomicFilter) (h : Nat) (hfk : 0 < f.k)
    (hak : 0 < a.k) :
    f.Clear.Test h = false ∧ (∀ w ∈ f.Clear.blocks, w = 0) ∧ f.Clear.count = 0 ∧
    f.Clear.Count = 0 ∧ f.Clear.EstimatedFillRatio = 0 ∧
    a.Clear.Test h = false ∧ (∀ w ∈ a.Clear.blocks, w = 0) ∧ a.Clear.Count = 0 ∧
    a.Clear.EstimatedFillRatio = 0 := by
  refine ⟨clear_Test_false f hfk h, clear_words f, rfl, rfl, clear_fill f, ?_, ?_, rfl, ?_⟩
  · rw [atomic_Test_toFilter, atomic_Clear_toFilter]
    exact clear_Test_false a.toFilter hak h
  · intro w hw
    exact List.eq_of_mem_replicate hw
  · rw [atomic_fill_toFilter, atomic_Clear_toFilter]
    exact clear_fill a.toFilter

/-- C9 witness: concrete instantiation on freshly constructed filters. -/
theorem C9_clear_witness : (NewWithParams 1 3).Clear.Test 5 = false :=
  (C9_clear (NewWithParams 1 3) (NewAtomicWithParams 1 3) 5 (by decide) (by decide)).1

/-- C10: for every well-formed filter, block index and intra-block hash, the
k probed positions are pairwise distinct, each lies in the half-open range
[offsets[i], offsets[i] + primes[i]) inside the 512-bit block, those ranges
are ordered and disjoint, and addWithHash leaves every word outside the
selected block unchanged. -/
theorem C10_probe_disjoint (f : Filter) (hf : WF f) (bIdx ih : Nat)
    (hb : bIdx < f.numBlocks) :
    (∀ i j, i < f.k → j < f.k → i ≠ j → probePos f ih i ≠ probePos f ih j) ∧
    (∀ i, i < f.k →
      f.offsets.getD i 0 ≤ probePos f ih i ∧
      probePos f ih i < f.offsets.getD i 0 + f.primes.getD i 0 ∧
      probePos f ih i < 512) ∧
    (∀ i j, i < f.k → j < f.k → i < j →
      f.offsets.getD i 0 + f.primes.getD i 0 ≤ f.offsets.getD j 0) ∧
    (∀ w, w < bIdx * BlockWords ∨ bIdx * BlockWords + BlockWords ≤ w →
      (f.addWithHash bIdx ih).blocks.getD w 0 = f.blocks.getD w 0) := by
  obtain ⟨-, -, -, -, -, hlook, hoff⟩ := hf
  obtain ⟨hlen, -, -, hok⟩ := partition_spec f.k f.primes hlook
  have hrange : ∀ i, i < f.k →
      f.offsets.getD i 0 ≤ probePos f ih i ∧
      probePos f ih i < f.offsets.getD i 0 + f.primes.getD i 0 ∧
      probePos f ih i < 512 := by
    intro i hi
    obtain ⟨hpos, hle, -⟩ := hok i (by omega)
    have hmod : ih % f.primes.getD i 0 < f.primes.getD i 0 := Nat.mod_lt ih hpos
    unfold probePos
    rw [hoff]
    omega
  have hord : ∀ i j, i < f.k → j < f.k → i < j →
      f.offsets.getD i 0 + f.primes.getD i 0 ≤ f.offsets.getD j 0 := by
    intro i j hi hj hij
    obtain ⟨-, -, hmono⟩ := hok j (by omega)
    have := hmono i hij
    rw [hoff]
    exact this
  refine ⟨?_, hrange, hord, ?_⟩
  · intro i j hi hj hij
    rcases Nat.lt_or_ge i j with hlt | hge
    · have h1 := (hrange i hi).2.1
      have h2 := (hrange j hj).1
      have h3 := hord i j hi hj hlt
      omega
    · have hlt : j < i := by omega
      have h1 := (hrange j hj).2.1
      have h2 := (hrange i hi).1
      have h3 := hord j i hj hi hlt
      omega
  · intro w hw
    rw [addWithHash_blocks]
    refine foldl_orBit_frame _ _ (List.range f.k) f.blocks w ?_
    intro i hmem
    have hi := List.mem_range.mp hmem
    have hlt := (hrange i hi).2.2
    have hdiv : probePos f ih i / 64 < 8 := by omega
    unfold probeWord
    rw [blockWords_eq] at hw ⊢
    omega

/-- C10 witness: concrete instantiation on a freshly constructed filter. -/
theorem C10_probe_disjoint_witness :
    ((NewWithParams 1 3).addWithHash 0 12345).blocks.getD 8 0 =
      (NewWithParams 1 3).blocks.getD 8 0 :=
  (C10_probe_disjoint (NewWithParams 1 3) (WF_NewWithParams 1 3 (by decide)) 0 12345
    (by decide)).2.2.2 8 (Or.inr (by decide))

/-- C1: no false negatives on any variant: after Add(key), every subsequent
Test(key) with no intervening Clear returns true, immediately, after any
further sequence of Adds of arbitrary keys, and (for the unsynchronized
variant with at most 2^50 blocks) after a serialize/deserialize round trip. -/
theorem C1_no_false_negatives (f : Filter) (a : AtomicFilter) (s : ShardedAtomicFilter)
    (hf : WF f) (ha : AWF a) (hsw : SWF s) (h : Nat) (hs : List Nat) :
    (applyAdds (f.Add h) hs).Test h = true ∧
    (applyAddsAtomic (a.Add h) hs).Test h = true ∧
    (applyAddsSharded (s.Add h) hs).Test h = true ∧
    (f.numBlocks ≤ 2 ^ 50 →
      ∀ g, UnmarshalBinary ((applyAdds (f.Add h) hs).MarshalBinary) = .ok g →
        g.Test h = true) := by
  have hcore : ∀ f0 : Filter, WF f0 → (applyAdds (f0.Add h) hs).Test h = true :=
    fun f0 h0 => applyAdds_Test_mono hs (f0.Add h) h (Add_Test_self f0 h0 h)
  refine ⟨hcore f hf, ?_, ?_, ?_⟩
  · rw [atomic_Test_toFilter, applyAddsAtomic_toFilter, atomic_Add_toFilter]
    exact hcore a.toFilter ha
  · exact applyAddsSharded_Test_mono hs (s.Add h) (SWF_Add s hsw h) h
      (sharded_Add_Test_self s hsw h)
  · intro hceil g hg
    have hwf2 : WF (applyAdds (f.Add h) hs) := applyAdds_WF hs (f.Add h) (WF_Add f hf h)
    have hnb : (applyAdds (f.Add h) hs).numBlocks = f.numBlocks := by
      rw [applyAdds_numBlocks]
      rfl
    have hrt := marshal_roundtrip _ hwf2 (by rw [hnb, maxNumBlocks_eq]; exact hceil)
    rw [hrt] at hg
    injection hg with hg
    rw [← hg]
    exact hcore f hf

/-- C1 witness: add hash 5 to a fresh 1-block k=3 filter, add hash 7 after,
and Test of 5 still answers true. -/
theorem C1_no_false_negatives_witness :
    (applyAdds ((NewWithParams 1 3).Add 5) [7]).Test 5 = true :=
  (C1_no_false_negatives (NewWithParams 1 3) (NewAtomicWithParams 1 3)
    ⟨[NewAtomicWithParams 1 3], 1, 0⟩ (WF_NewWithParams 1 3 (by decide))
    (by decide) (by decide) 5 [7]).1

/-- C2 (amended): for every well-formed unsynchronized filter with blockCount
at most 2^50, UnmarshalBinary after MarshalBinary succeeds and returns a
filter equal to the original (same numBlocks, k, count and bit array, hence
identical Test on every key), and MarshalBinary is deterministic. -/
theorem C2_serialization_roundtrip (f : Filter) (hf : WF f)
    (hceil : f.numBlocks ≤ 2 ^ 50) :
    UnmarshalBinary f.MarshalBinary = .ok f ∧
    f.MarshalBinary = f.MarshalBinary ∧
    (∀ g, UnmarshalBinary f.MarshalBinary = .ok g →
      g.numBlocks = f.numBlocks ∧ g.k = f.k ∧ g.count = f.count ∧ g.blocks = f.blocks ∧
      ∀ h, g.Test h = f.Test h) := by
  have hrt := marshal_roundtrip f hf (by rw [maxNumBlocks_eq]; exact hceil)
  refine ⟨hrt, rfl, ?_⟩
  intro g hg
  rw [hrt] at hg
  injection hg with hg
  rw [← hg]
  exact ⟨rfl, rfl, rfl, rfl, fun _ => rfl⟩

/-- C2 witness: round trip of a fresh 1-block k=3 filter. -/
theorem C2_serialization_roundtrip_witness :
    UnmarshalBinary ((NewWithParams 1 3).MarshalBinary) = .ok (NewWithParams 1 3) :=
  (C2_serialization_roundtrip (NewWithParams 1 3) (WF_NewWithParams 1 3 (by decide))
    (by decide)).1

/-- C2 counterexample: the claim as stated quantifies over every filter, but
for a filter with blockCount = 2^50 + 1 the decoder rejects its own encoder
output with the invalid-data error, so the round trip does not succeed. -/
theorem C2_roundtrip_counterexample :
    UnmarshalBinary ((NewWithParams (2 ^ 50 + 1) 7).MarshalBinary) =
      .error .invalidData := by
  have hnum : (NewWithParams (2 ^ 50 + 1) 7).numBlocks = 2 ^ 50 + 1 := rfl
  refine marshal_decode_big _ (WF_NewWithParams (2 ^ 50 + 1) 7 (by norm_num)) ?_
  rw [hnum, maxNumBlocks_eq]
  exact Nat.lt_succ_self _

/-- C3 (amended): the decoder validation cascade: length below 21 gives
invalid-data; wrong version gives unsupported-version; unsupported k gives
invalid-k; blockCount zero or strictly above the 2^50 ceiling gives
invalid-data; total length different from 21 + blockCount*64 gives
invalid-data; decode succeeds exactly when all validations pass (blockCount
equal to 2^50 itself is accepted). -/
theorem C3_decode_validation (data : List Nat) :
    (data.length < 21 → UnmarshalBinary data = .error .invalidData) ∧
    (¬ data.length < 21 → data.getD 0 0 ≠ 1 →
      UnmarshalBinary data = .error .unsupportedVersion) ∧
    (¬ data.length < 21 → data.getD 0 0 = 1 →
      GetPrimePartition (readLE data 1 4) = none →
      UnmarshalBinary data = .error .invalidK) ∧
    (∀ ps, ¬ data.length < 21 → data.getD 0 0 = 1 →
      GetPrimePartition (readLE data 1 4) = some ps → readLE data 5 8 = 0 →
      UnmarshalBinary data = .error .invalidData) ∧
    (∀ ps, ¬ data.length < 21 → data.getD 0 0 = 1 →
      GetPrimePartition (readLE data 1 4) = some ps → 2 ^ 50 < readLE data 5 8 →
      UnmarshalBinary data = .error .invalidData) ∧
    (∀ ps, ¬ data.length < 21 → data.getD 0 0 = 1 →
      GetPrimePartition (readLE data 1 4) = some ps → readLE data 5 8 ≠ 0 →
      ¬ 2 ^ 50 < readLE data 5 8 → data.length ≠ 21 + readLE data 5 8 * 64 →
      UnmarshalBinary data = .error .invalidData) ∧
    ((UnmarshalBinary data).isOk = true ↔
      (¬ data.length < 21 ∧ data.getD 0 0 = 1 ∧
        (GetPrimePartition (readLE data 1 4)).isSome = true ∧ readLE data 5 8 ≠ 0 ∧
        ¬ 2 ^ 50 < readLE data 5 8 ∧ data.length = 21 + readLE data 5 8 * 64)) := by
  refine ⟨unmarshal_short data, unmarshal_version data, unmarshal_badk data,
    fun ps h1 h2 h3 h4 => unmarshal_zero data h1 h2 ps h3 h4,
    fun ps h1 h2 h3 h4 => unmarshal_big data h1 h2 ps h3 (by rw [maxNumBlocks_eq]; exact h4),
    fun ps h1 h2 h3 h4 h5 h6 => unmarshal_mismatch data h1 h2 ps h3 h4
      (by rw [maxNumBlocks_eq]; exact h5) h6, ?_, ?_⟩
  · intro hok
    by_cases hlen : data.length < 21
    · rw [unmarshal_short data hlen] at hok
      exact Bool.noConfusion hok
    by_cases hv : data.getD 0 0 = 1
    swap
    · rw [unmarshal_version data hlen hv] at hok
      exact Bool.noConfusion hok
    rcases hkopt : GetPrimePartition (readLE data 1 4) with _ | ps
    · rw [unmarshal_badk data hlen hv hkopt] at hok
      exact Bool.noConfusion hok
    by_cases h0 : readLE data 5 8 = 0
    · rw [unmarshal_zero data hlen hv ps hkopt h0] at hok
      exact Bool.noConfusion hok
    by_cases hbig : 2 ^ 50 < readLE data 5 8
    · rw [unmarshal_big data hlen hv ps hkopt (by rw [maxNumBlocks_eq]; exact hbig)] at hok
      exact Bool.noConfusion hok
    by_cases hlen2 : data.length = 21 + readLE data 5 8 * 64
    · exact ⟨hlen, hv, rfl, h0, hbig, hlen2⟩
    · rw [unmarshal_mismatch data hlen hv ps hkopt h0
        (by rw [maxNumBlocks_eq]; exact hbig) hlen2] at hok
      exact Bool.noConfusion hok
  · rintro ⟨hlen, hv, hksome, h0, hbig, hlen2⟩
    obtain ⟨ps, hk⟩ := Option.isSome_iff_exists.mp hksome
    exact unmarshal_ok data hlen hv ps hk h0 (by rw [maxNumBlocks_eq]; exact hbig) hlen2

/-- C3 witness: a 20-byte buffer is rejected with the invalid-data error. -/
theorem C3_decode_validation_witness :
    UnmarshalBinary (List.replicate 20 0) = .error .invalidData :=
  (C3_decode_validation (List.replicate 20 0)).1 (by decide)

/-- C3 counterexample: an input declaring blockCount = 2^50, which is not
below the sanity ceiling, with consistent total length, is accepted by the
decoder rather than rejected with the invalid-data error. -/
theorem C3_decode_counterexample : (UnmarshalBinary c3Big).isOk = true := by
  refine unmarshal_ok c3Big ?_ c3Big_version [61, 67, 71, 79, 83, 89, 62] ?_ ?_ ?_ ?_
  · rw [c3Big_length]
    norm_num
  · rw [c3Big_k]
    rfl
  · rw [c3Big_numBlocks]
    positivity
  · rw [c3Big_numBlocks, maxNumBlocks_eq]
    exact lt_irrefl _
  · rw [c3Big_length, c3Big_numBlocks]
    norm_num

end Gloom
